import Mathlib

/-!
Shallow embedding of `src/dsnt.py`, a TensorFlow implementation of the
Differentiable Spatial to Numerical Transform (DSNT).

Tensors of shape `[batch, height, width]` are embedded as functions
`Fin B → Fin H → Fin W → ℚ`; exact rational arithmetic stands in for
floating point.  The transcendental primitives `tf.exp` and `tf.log` are
passed in as explicit function parameters (`ex`, `lg : ℚ → ℚ`), so every
definition stays computable and the algebraic structure of the source is
preserved exactly.  Python's `/` on TensorFlow integer tensors is true
division (`truediv`), so the coordinate grids are built with rational
division.  A TensorFlow op that fails at run time (an invalid `tf.reshape`)
is embedded as `Except.error`.
-/

namespace Dsnt

/-- Sum of a `[H, W]` plane: `tf.reduce_sum(x, [1, 2])` for one batch element. -/
def planeSum {H W : ℕ} (x : Fin H → Fin W → ℚ) : ℚ :=
  ∑ i : Fin H, ∑ j : Fin W, x i j

/-- Maximum of a list of rationals (the head is used as the fold seed, so on a
nonempty list this is the true maximum; on `[]` it defaults to `0`, a case the
source never hits because planes are nonempty). -/
def listMax (l : List ℚ) : ℚ :=
  l.foldr max (l.headD 0)

/-- Row-major listing of a `[H, W]` plane. -/
def planeList {H W : ℕ} (x : Fin H → Fin W → ℚ) : List ℚ :=
  ((List.finRange H).map (fun i => (List.finRange W).map (x i))).flatten

/-- Maximum of a `[H, W]` plane: `tf.reduce_max(x, axes, keep_dims=True)` for
one batch element. -/
def planeMax {H W : ℕ} (x : Fin H → Fin W → ℚ) : ℚ :=
  listMax (planeList x)

/-- `_softmax2d(target, axes=[1, 2])`: numerically stable softmax over the two
spatial axes, per batch element.  Subtracts the per-image maximum, applies
`ex` (the embedding of `tf.exp`), and divides by the per-image sum computed
with `keep_dims`. -/
def softmax2d {B H W : ℕ} (ex : ℚ → ℚ) (target : Fin B → Fin H → Fin W → ℚ) :
    Fin B → Fin H → Fin W → ℚ :=
  fun b i j =>
    ex (target b i j - planeMax (target b)) /
      planeSum (fun i' j' => ex (target b i' j' - planeMax (target b)))

/-- The `normalise` lambda of `_normalise_heatmap`:
`tf.div(x, tf.reshape(tf.reduce_sum(x, [1, 2]), [2, 1, 1]))`.
The reshape target `[2, 1, 1]` is a literal, so the op only succeeds when the
batch size is exactly 2; any other batch size makes `tf.reshape` fail at run
time, embedded here as `Except.error`. -/
def normalise {B H W : ℕ} (x : Fin B → Fin H → Fin W → ℚ) :
    Except String (Fin B → Fin H → Fin W → ℚ) :=
  if B = 2 then
    .ok (fun b i j => x b i j / planeSum (x b))
  else
    .error "reshape: cannot reshape per-image sums to [2, 1, 1]"

/-- `_normalise_heatmap(inputs, method)`: rectify the raw heatmap by the chosen
method.  `softmax` uses `_softmax2d`; `abs`, `relu` and `sigmoid` rectify
elementwise and then call the `normalise` lambda; any other method raises
`ValueError("Unknown rectification method ...")`. -/
def normalise_heatmap {B H W : ℕ} (ex : ℚ → ℚ)
    (inputs : Fin B → Fin H → Fin W → ℚ) (method : String) :
    Except String (Fin B → Fin H → Fin W → ℚ) :=
  if method = "softmax" then
    .ok (softmax2d ex inputs)
  else if method = "abs" then
    normalise (fun b i j => |inputs b i j|)
  else if method = "relu" then
    normalise (fun b i j => max (inputs b i j) 0)
  else if method = "sigmoid" then
    normalise (fun b i j => 1 / (1 + ex (-(inputs b i j))))
  else
    .error ("Unknown rectification method \x22" ++ method ++ "\x22")

/-- The x coordinate grid built inside `dsnt`:
`tf.tile([[(2 * tf.range(1, width+1) - (width + 1)) / width]], [batch_count, height, 1])`.
`tf.range(1, width+1)` yields `1 .. W`, and `/` on TensorFlow tensors is true
division, so entry `(b, i, j)` is `(2*(j+1) - (W+1)) / W`, constant in `b`
and `i`. -/
def dsnt_x (B H W : ℕ) : Fin B → Fin H → Fin W → ℚ :=
  fun _ _ j => (2 * ((j : ℚ) + 1) - ((W : ℚ) + 1)) / (W : ℚ)

/-- The y coordinate grid built inside `dsnt`: the same row vector built from
the height, tiled to `[batch, width, height]` and transposed with
`perm=[0, 2, 1]`, so entry `(b, i, j)` is `(2*(i+1) - (H+1)) / H`, varying
along the height axis. -/
def dsnt_y (B H W : ℕ) : Fin B → Fin H → Fin W → ℚ :=
  fun _ i _ => (2 * ((i : ℚ) + 1) - ((H : ℚ) + 1)) / (H : ℚ)

/-- `outputs_x = tf.reduce_sum(tf.multiply(norm_heatmap, dsnt_x), axis=[1, 2])`:
the Frobenius inner product of the normalised heatmap with the x grid. -/
def outputs_x {B H W : ℕ} (norm_heatmap : Fin B → Fin H → Fin W → ℚ) : Fin B → ℚ :=
  fun b => ∑ i : Fin H, ∑ j : Fin W, norm_heatmap b i j * dsnt_x B H W b i j

/-- `outputs_y = tf.reduce_sum(tf.multiply(norm_heatmap, dsnt_y), axis=[1, 2])`. -/
def outputs_y {B H W : ℕ} (norm_heatmap : Fin B → Fin H → Fin W → ℚ) : Fin B → ℚ :=
  fun b => ∑ i : Fin H, ∑ j : Fin W, norm_heatmap b i j * dsnt_y B H W b i j

/-- `coords_zipped = tf.stack([outputs_x, outputs_y], axis=1)`: a `[batch, 2]`
tensor whose row `b` is the pair `[x, y]`. -/
def coords_zipped {B H W : ℕ} (norm_heatmap : Fin B → Fin H → Fin W → ℚ) :
    Fin B → Fin 2 → ℚ :=
  fun b k => if k = 0 then outputs_x norm_heatmap b else outputs_y norm_heatmap b

/-- `dsnt(inputs, method)`: normalise the heatmap, then return it together with
the expected coordinates. -/
def dsnt {B H W : ℕ} (ex : ℚ → ℚ) (inputs : Fin B → Fin H → Fin W → ℚ)
    (method : String) :
    Except String ((Fin B → Fin H → Fin W → ℚ) × (Fin B → Fin 2 → ℚ)) :=
  (normalise_heatmap ex inputs method).map
    (fun norm_heatmap => (norm_heatmap, coords_zipped norm_heatmap))

/-- Default value of the `eps` argument of `_kl_2d` in the source: `eps=24`. -/
def kl_2d_eps_default : ℚ := 24

/-- Default value of the `eps` argument of `_js_2d` in the source: `eps=1e-24`. -/
def js_2d_eps_default : ℚ := 1 / 10 ^ 24

/-- `_kl_2d(p, q, eps)`: `p * (tf.log(p + eps) - tf.log(q + eps))` summed over
the two spatial axes, keeping the batch axis.  `lg` embeds `tf.log`. -/
def kl_2d {B H W : ℕ} (lg : ℚ → ℚ) (p q : Fin B → Fin H → Fin W → ℚ)
    (eps : ℚ) : Fin B → ℚ :=
  fun b => ∑ i : Fin H, ∑ j : Fin W,
    p b i j * (lg (p b i j + eps) - lg (q b i j + eps))

/-- `_js_2d(p, q, eps=1e-24)`: `m = 0.5*(p+q)`;
`0.5 * _kl_2d(p, m, eps) + 0.5 * _kl_2d(q, m, eps)`. -/
def js_2d {B H W : ℕ} (lg : ℚ → ℚ) (p q : Fin B → Fin H → Fin W → ℚ)
    (eps : ℚ) : Fin B → ℚ :=
  fun b =>
    (1/2) * kl_2d lg p (fun b' i j => (1/2) * (p b' i j + q b' i j)) eps b +
    (1/2) * kl_2d lg q (fun b' i j => (1/2) * (p b' i j + q b' i j)) eps b

/-- `_make_gaussian(size, centre, fwhm)`: scale the normalised centre to pixel
space (`cx = centre.x * W`, `cy = centre.y * H`), build a square lattice of
side `max(H, W)`, evaluate
`tf.exp(-4*tf.log(2.) * ((x-x0)**2 + (y-y0)**2) / fwhm**2)` with
`x0 = cx - 0.5`, `y0 = cy - 0.5`, crop to the first `H` rows and `W` columns,
and divide by the total sum of the cropped surface.  `ex` embeds `tf.exp` and
`lg2` the constant `tf.log(2.)`.  Since `H, W ≤ max(H, W)`, the crop simply
restricts the square lattice index to `Fin H × Fin W`. -/
def make_gaussian {H W : ℕ} (ex : ℚ → ℚ) (lg2 : ℚ) (centre : ℚ × ℚ)
    (fwhm : ℚ) : Fin H → Fin W → ℚ :=
  fun i j =>
    ex (-4 * lg2 * (((j : ℚ) - (centre.1 * (W : ℚ) - 1/2)) ^ 2 +
        ((i : ℚ) - (centre.2 * (H : ℚ) - 1/2)) ^ 2) / fwhm ^ 2) /
      planeSum (fun (i' : Fin H) (j' : Fin W) =>
        ex (-4 * lg2 * (((j' : ℚ) - (centre.1 * (W : ℚ) - 1/2)) ^ 2 +
          ((i' : ℚ) - (centre.2 * (H : ℚ) - 1/2)) ^ 2) / fwhm ^ 2))

/-- The Gaussian surface as the spec describes it (claim C7):
`exp(-4*ln(2) * ((x-cx+0.5)^2 + (y-cy+0.5)^2) / fwhm^2)` evaluated at every
pixel `(y, x)` of the `H`-by-`W` crop with `(cx, cy) = (centre.x * W,
centre.y * H)`, divided by the total sum.  Stated from the spec's words, to be
compared with `make_gaussian` (translated from the source). -/
def gaussSpecFormula {H W : ℕ} (ex : ℚ → ℚ) (lg2 : ℚ) (centre : ℚ × ℚ)
    (fwhm : ℚ) : Fin H → Fin W → ℚ :=
  fun i j =>
    ex (-4 * lg2 * (((j : ℚ) - centre.1 * (W : ℚ) + 1/2) ^ 2 +
        ((i : ℚ) - centre.2 * (H : ℚ) + 1/2) ^ 2) / fwhm ^ 2) /
      planeSum (fun (i' : Fin H) (j' : Fin W) =>
        ex (-4 * lg2 * (((j' : ℚ) - centre.1 * (W : ℚ) + 1/2) ^ 2 +
          ((i' : ℚ) - centre.2 * (H : ℚ) + 1/2) ^ 2) / fwhm ^ 2))

/-- `tf.reshape(new_heatmap, [-1])` applied to a single Gaussian plane:
row-major flattening. -/
def flattenPlane {H W : ℕ} (g : Fin H → Fin W → ℚ) : List ℚ :=
  planeList g

/-- The `tf.while_loop` body of `_make_gaussians`: pop the first centre, draw
its Gaussian, flatten it and append it to the accumulated flat tensor. -/
def make_gaussians_loop (ex : ℚ → ℚ) (lg2 : ℚ) (H W : ℕ) (fwhm : ℚ) :
    List (ℚ × ℚ) → List ℚ → List ℚ
  | [], heatmaps => heatmaps
  | c :: centres, heatmaps =>
      make_gaussians_loop ex lg2 H W fwhm centres
        (heatmaps ++ flattenPlane (make_gaussian (H := H) (W := W) ex lg2 c fwhm))

/-- `_make_gaussians(centres_in, height, width, fwhm)` before the final
reshape: the flat tensor accumulated by the while loop, starting from
`tf.constant([])`. -/
def make_gaussians_flat (ex : ℚ → ℚ) (lg2 : ℚ) (centres_in : List (ℚ × ℚ))
    (height width : ℕ) (fwhm : ℚ) : List ℚ :=
  make_gaussians_loop ex lg2 height width fwhm centres_in []

/-- `_make_gaussians(centres_in, height, width, fwhm)`: the flat tensor
reshaped to `[-1, height, width]`, so element `(b, i, j)` sits at flat index
`b*(H*W) + i*W + j`. -/
def make_gaussians (ex : ℚ → ℚ) (lg2 : ℚ) (centres_in : List (ℚ × ℚ))
    (height width : ℕ) (fwhm : ℚ) :
    Fin centres_in.length → Fin height → Fin width → ℚ :=
  fun b i j =>
    (make_gaussians_flat ex lg2 centres_in height width fwhm).getD
      ((b : ℕ) * (height * width) + (i : ℕ) * width + (j : ℕ)) 0

/-- `js_reg_loss(heatmaps, centres, fwhm)`: draw the target Gaussians from the
centres at the heatmaps' spatial size, take the per-element JS divergences,
and return `tf.reduce_mean(divergences)` (their sum divided by the batch
count). -/
def js_reg_loss {H W : ℕ} (ex lg : ℚ → ℚ) (lg2 : ℚ)
    (centres : List (ℚ × ℚ))
    (heatmaps : Fin centres.length → Fin H → Fin W → ℚ) (fwhm : ℚ) : ℚ :=
  (∑ b : Fin centres.length,
    js_2d lg heatmaps (make_gaussians ex lg2 centres H W fwhm)
      js_2d_eps_default b) / (centres.length : ℚ)

/-- A computable, strictly increasing, everywhere-positive stand-in for `exp`
on `ℚ`, used to instantiate the abstract `ex` parameter in witnesses. -/
def expQ (x : ℚ) : ℚ := if x < 0 then 1 / (1 - x) else x + 1

/-- The one-hot heatmap concentrated at pixel `(h0, w0)` in every batch
element. -/
def oneHot {B H W : ℕ} (h0 : Fin H) (w0 : Fin W) : Fin B → Fin H → Fin W → ℚ :=
  fun _ i j => if i = h0 ∧ j = w0 then 1 else 0

lemma expQ_pos (x : ℚ) : 0 < expQ x := by
  unfold expQ
  split_ifs with hx
  · have h1 : (0 : ℚ) < 1 - x := by linarith
    positivity
  · push_neg at hx
    linarith

lemma expQ_lt_expQ {a b : ℚ} (h : a < b) : expQ a < expQ b := by
  unfold expQ
  split_ifs with ha hb hb
  · have h1 : (0 : ℚ) < 1 - a := by linarith
    have h2 : (0 : ℚ) < 1 - b := by linarith
    rw [div_lt_div_iff h1 h2]
    linarith
  · push_neg at hb
    have h1 : (1 : ℚ) < 1 - a := by linarith
    have h2 : 1 / (1 - a) < 1 := by
      rw [div_lt_one (by linarith)]
      exact h1
    linarith
  · push_neg at ha
    linarith
  · linarith

lemma planeSum_pos {H W : ℕ} (u : Fin H → Fin W → ℚ)
    (hpos : ∀ i j, 0 < u i j) (i : Fin H) (j : Fin W) : 0 < planeSum u := by
  have : (Finset.univ : Finset (Fin H)).Nonempty := ⟨i, Finset.mem_univ i⟩
  refine Finset.sum_pos (fun a _ => ?_) this
  have : (Finset.univ : Finset (Fin W)).Nonempty := ⟨j, Finset.mem_univ j⟩
  exact Finset.sum_pos (fun c _ => hpos a c) this

lemma planeSum_div_self {H W : ℕ} (u : Fin H → Fin W → ℚ)
    (hS : planeSum u ≠ 0) : planeSum (fun i j => u i j / planeSum u) = 1 := by
  unfold planeSum at hS ⊢
  simp only [← Finset.sum_div]
  exact div_self hS

end Dsnt

namespace Dsnt

/-- Claim C2 (code bug): the `eps` default of `_kl_2d` in the source is the
literal `24`, not the `1e-24` the spec and the claim state; only `_js_2d`
defaults to `1e-24` (and passes it to `_kl_2d` explicitly).  The gap between
the two defaults exceeds 23, so the helper's default is in no sense
"approximately 1e-24". -/
theorem c2_kl_eps_default_is_24 :
    kl_2d_eps_default = 24 ∧ js_2d_eps_default = 1 / 10 ^ 24 ∧
      23 < kl_2d_eps_default - js_2d_eps_default := by
  refine ⟨rfl, rfl, ?_⟩
  norm_num [kl_2d_eps_default, js_2d_eps_default]

/-- Claim C3: for any method outside `{softmax, abs, relu, sigmoid}`,
`_normalise_heatmap` returns the `Unknown rectification method` error naming
the offending method, for every input heatmap (so the error does not depend on
the heatmap values and no rectification branch ever runs). -/
theorem c3_unknown_method_error {B H W : ℕ} (ex : ℚ → ℚ)
    (inputs : Fin B → Fin H → Fin W → ℚ) (method : String)
    (h : method ≠ "softmax" ∧ method ≠ "abs" ∧ method ≠ "relu" ∧
      method ≠ "sigmoid") :
    normalise_heatmap ex inputs method =
      .error ("Unknown rectification method \x22" ++ method ++ "\x22") := by
  obtain ⟨h1, h2, h3, h4⟩ := h
  simp [normalise_heatmap, h1, h2, h3, h4]

/-- Witness for C3 at the concrete method string `"gauss"`. -/
theorem c3_unknown_method_error_witness :
    normalise_heatmap (fun q => q)
      (fun (_ : Fin 1) (_ : Fin 1) (_ : Fin 1) => (0 : ℚ)) "gauss" =
      .error ("Unknown rectification method \x22" ++ "gauss" ++ "\x22") :=
  c3_unknown_method_error (fun q => q) _ "gauss"
    ⟨by decide, by decide, by decide, by decide⟩

/-- Claim C6: the Jensen-Shannon divergence of `_js_2d` is symmetric in its two
distribution arguments, for every log function, every pair of equal-shape
batched distributions and every `eps`, because the midpoint `0.5*(p+q)` is
symmetric and the two KL terms swap. -/
theorem c6_js_symmetric {B H W : ℕ} (lg : ℚ → ℚ)
    (p q : Fin B → Fin H → Fin W → ℚ) (eps : ℚ) :
    js_2d lg p q eps = js_2d lg q p eps := by
  funext b
  have hm : (fun (b' : Fin B) (i : Fin H) (j : Fin W) =>
      (1/2 : ℚ) * (p b' i j + q b' i j)) =
      (fun b' i j => (1/2 : ℚ) * (q b' i j + p b' i j)) := by
    funext b' i j
    ring
  simp only [js_2d, hm]
  ring

/-- Claim C9: the Jensen-Shannon divergence of any distribution with itself is
exactly `0` (in exact arithmetic), for every log function, every `eps` and
every batch element: the midpoint `0.5*(p+p)` equals `p`, so every summand of
both KL terms vanishes. -/
theorem c9_js_self_zero {B H W : ℕ} (lg : ℚ → ℚ)
    (p : Fin B → Fin H → Fin W → ℚ) (eps : ℚ) (b : Fin B) :
    js_2d lg p p eps b = 0 := by
  simp only [js_2d, kl_2d]
  have h : (∑ i : Fin H, ∑ j : Fin W,
      p b i j * (lg (p b i j + eps) -
        lg ((1/2 : ℚ) * (p b i j + p b i j) + eps))) = 0 := by
    refine Finset.sum_eq_zero (fun i _ => Finset.sum_eq_zero (fun j _ => ?_))
    have hp : (1/2 : ℚ) * (p b i j + p b i j) = p b i j := by ring
    rw [hp, sub_self, mul_zero]
  rw [h]
  ring

/-- Claim C4: the expectation engine of `dsnt` computes, per batch element,
the Frobenius inner products of the normalised heatmap with the x and y
grids, stacks them as `[x, y]` rows of a `[batch, 2]` tensor, and on a one-hot
distribution concentrated at pixel `(h0, w0)` the resulting pair is exactly
`(x-grid value at column w0, y-grid value at row h0)`. -/
theorem c4_expectation_frobenius_onehot {B H W : ℕ}
    (norm_heatmap : Fin B → Fin H → Fin W → ℚ) (b : Fin B)
    (h0 : Fin H) (w0 : Fin W) :
    outputs_x norm_heatmap b =
      (∑ i : Fin H, ∑ j : Fin W, norm_heatmap b i j * dsnt_x B H W b i j) ∧
    outputs_y norm_heatmap b =
      (∑ i : Fin H, ∑ j : Fin W, norm_heatmap b i j * dsnt_y B H W b i j) ∧
    coords_zipped norm_heatmap b 0 = outputs_x norm_heatmap b ∧
    coords_zipped norm_heatmap b 1 = outputs_y norm_heatmap b ∧
    coords_zipped (oneHot h0 w0) b 0 = dsnt_x B H W b h0 w0 ∧
    coords_zipped (oneHot h0 w0) b 1 = dsnt_y B H W b h0 w0 := by
  have hsum : ∀ g : Fin H → Fin W → ℚ,
      (∑ i : Fin H, ∑ j : Fin W,
        (if i = h0 ∧ j = w0 then (1 : ℚ) else 0) * g i j) = g h0 w0 := by
    intro g
    have hrow : ∀ i : Fin H,
        (∑ j : Fin W, (if i = h0 ∧ j = w0 then (1 : ℚ) else 0) * g i j) =
          if i = h0 then g i w0 else 0 := by
      intro i
      by_cases hi : i = h0
      · simp only [hi, true_and, if_true]
        rw [Finset.sum_congr rfl
          (fun j _ => by rw [ite_mul, one_mul, zero_mul])]
        simpa using Finset.sum_ite_eq' Finset.univ w0 (fun j => g h0 j)
      · simp [hi]
    rw [Finset.sum_congr rfl (fun i _ => hrow i)]
    simpa using Finset.sum_ite_eq' Finset.univ h0 (fun i => g i w0)
  refine ⟨rfl, rfl, rfl, rfl, ?_, ?_⟩
  · show outputs_x (oneHot h0 w0) b = dsnt_x B H W b h0 w0
    unfold outputs_x oneHot
    rw [hsum (fun i j => dsnt_x B H W b i j)]
  · show outputs_y (oneHot h0 w0) b = dsnt_y B H W b h0 w0
    unfold outputs_y oneHot
    rw [hsum (fun i j => dsnt_y B H W b i j)]

/-- Claim C5: the coordinate grids of `dsnt` have entry
`(2*(index+1) - (size+1)) / size`; consecutive entries differ by `2/W`
(resp. `2/H`), entries at mirror positions sum to `0`, entries are strictly
increasing along the width (resp. height) axis, and every entry lies strictly
between `-1` and `1`. -/
theorem c5_grid_properties (B H W : ℕ) (b : Fin B) (i : Fin H) (j : Fin W)
    (j1 j2 j3 j4 j5 j6 : Fin W) (i1 i2 i3 i4 i5 i6 : Fin H)
    (hjstep : (j2 : ℕ) = (j1 : ℕ) + 1) (hjmir : (j3 : ℕ) + (j4 : ℕ) + 1 = W)
    (hjlt : j5 < j6)
    (histep : (i2 : ℕ) = (i1 : ℕ) + 1) (himir : (i3 : ℕ) + (i4 : ℕ) + 1 = H)
    (hilt : i5 < i6) :
    dsnt_x B H W b i j = (2 * ((j : ℚ) + 1) - ((W : ℚ) + 1)) / (W : ℚ) ∧
    dsnt_x B H W b i j2 - dsnt_x B H W b i j1 = 2 / (W : ℚ) ∧
    dsnt_x B H W b i j3 + dsnt_x B H W b i j4 = 0 ∧
    dsnt_x B H W b i j5 < dsnt_x B H W b i j6 ∧
    (-1 < dsnt_x B H W b i j ∧ dsnt_x B H W b i j < 1) ∧
    dsnt_y B H W b i j = (2 * ((i : ℚ) + 1) - ((H : ℚ) + 1)) / (H : ℚ) ∧
    dsnt_y B H W b i2 j - dsnt_y B H W b i1 j = 2 / (H : ℚ) ∧
    dsnt_y B H W b i3 j + dsnt_y B H W b i4 j = 0 ∧
    dsnt_y B H W b i5 j < dsnt_y B H W b i6 j ∧
    (-1 < dsnt_y B H W b i j ∧ dsnt_y B H W b i j < 1) := by
  have hW : 0 < W := j.pos
  have hH : 0 < H := i.pos
  have hWQ : (0 : ℚ) < (W : ℚ) := by exact_mod_cast hW
  have hHQ : (0 : ℚ) < (H : ℚ) := by exact_mod_cast hH
  refine ⟨rfl, ?_, ?_, ?_, ⟨?_, ?_⟩, rfl, ?_, ?_, ?_, ⟨?_, ?_⟩⟩
  · unfold dsnt_x
    have h2 : ((j2 : ℕ) : ℚ) = ((j1 : ℕ) : ℚ) + 1 := by exact_mod_cast hjstep
    rw [h2, div_sub_div_same]
    congr 1
    ring
  · unfold dsnt_x
    have h34 : ((j3 : ℕ) : ℚ) + ((j4 : ℕ) : ℚ) + 1 = (W : ℚ) := by
      exact_mod_cast hjmir
    rw [div_add_div_same, div_eq_zero_iff]
    left
    linarith
  · unfold dsnt_x
    have h56 : ((j5 : ℕ) : ℚ) < ((j6 : ℕ) : ℚ) := by exact_mod_cast hjlt
    apply div_lt_div_of_pos_right ?_ hWQ
    linarith
  · unfold dsnt_x
    have hjW : ((j : ℕ) : ℚ) < (W : ℚ) := by exact_mod_cast j.isLt
    rw [lt_div_iff hWQ]
    linarith
  · unfold dsnt_x
    have hjW : ((j : ℕ) : ℚ) < (W : ℚ) := by exact_mod_cast j.isLt
    have hj0 : (0 : ℚ) ≤ ((j : ℕ) : ℚ) := by positivity
    rw [div_lt_iff hWQ]
    have : ((j : ℕ) : ℚ) + 1 ≤ (W : ℚ) := by
      have := j.isLt
      exact_mod_cast Nat.succ_le_of_lt this
    linarith
  · unfold dsnt_y
    have h2 : ((i2 : ℕ) : ℚ) = ((i1 : ℕ) : ℚ) + 1 := by exact_mod_cast histep
    rw [h2, div_sub_div_same]
    congr 1
    ring
  · unfold dsnt_y
    have h34 : ((i3 : ℕ) : ℚ) + ((i4 : ℕ) : ℚ) + 1 = (H : ℚ) := by
      exact_mod_cast himir
    rw [div_add_div_same, div_eq_zero_iff]
    left
    linarith
  · unfold dsnt_y
    have h56 : ((i5 : ℕ) : ℚ) < ((i6 : ℕ) : ℚ) := by exact_mod_cast hilt
    apply div_lt_div_of_pos_right ?_ hHQ
    linarith
  · unfold dsnt_y
    have hiH : ((i : ℕ) : ℚ) < (H : ℚ) := by exact_mod_cast i.isLt
    rw [lt_div_iff hHQ]
    linarith
  · unfold dsnt_y
    have hiH : ((i : ℕ) : ℚ) < (H : ℚ) := by exact_mod_cast i.isLt
    rw [div_lt_iff hHQ]
    have : ((i : ℕ) : ℚ) + 1 ≤ (H : ℚ) := by
      have := i.isLt
      exact_mod_cast Nat.succ_le_of_lt this
    linarith

/-- Witness for C5 on a 2x2 grid with batch size 1: consecutive, mirrored and
ordered index pairs all instantiated at columns/rows 0 and 1. -/
theorem c5_grid_properties_witness :
    dsnt_x 1 2 2 0 0 0 = (2 * ((0 : ℚ) + 1) - ((2 : ℚ) + 1)) / (2 : ℚ) ∧
    dsnt_x 1 2 2 0 0 1 - dsnt_x 1 2 2 0 0 0 = 2 / (2 : ℚ) ∧
    dsnt_x 1 2 2 0 0 0 + dsnt_x 1 2 2 0 0 1 = 0 ∧
    dsnt_x 1 2 2 0 0 0 < dsnt_x 1 2 2 0 0 1 ∧
    (-1 < dsnt_x 1 2 2 0 0 0 ∧ dsnt_x 1 2 2 0 0 0 < 1) ∧
    dsnt_y 1 2 2 0 0 0 = (2 * ((0 : ℚ) + 1) - ((2 : ℚ) + 1)) / (2 : ℚ) ∧
    dsnt_y 1 2 2 0 1 0 - dsnt_y 1 2 2 0 0 0 = 2 / (2 : ℚ) ∧
    dsnt_y 1 2 2 0 0 0 + dsnt_y 1 2 2 0 1 0 = 0 ∧
    dsnt_y 1 2 2 0 0 0 < dsnt_y 1 2 2 0 1 0 ∧
    (-1 < dsnt_y 1 2 2 0 0 0 ∧ dsnt_y 1 2 2 0 0 0 < 1) := by
  have h := c5_grid_properties 1 2 2 0 0 0 0 1 0 1 0 1 0 1 0 1 0 1
    (by decide) (by decide) (by decide) (by decide) (by decide) (by decide)
  exact h

/-- Claim C1 (code bug): the divide-by-sum normalisation path hard-codes batch
size 2 (`tf.reshape(..., [2, 1, 1])`), so with `method='abs'` and a batch of
one all-ones `1x1` heatmap, `_normalise_heatmap` fails with a reshape error
instead of returning a plane that sums to 1; the claim's "for any batch size"
only holds for the softmax path. -/
theorem c1_normalise_abs_batch1_fails :
    normalise_heatmap (fun q => q)
      (fun (_ : Fin 1) (_ : Fin 1) (_ : Fin 1) => (1 : ℚ)) "abs" =
      .error "reshape: cannot reshape per-image sums to [2, 1, 1]" := by
  simp [normalise_heatmap, normalise]

/-- Claim C10: with `method='softmax'`, `_normalise_heatmap` returns
`_softmax2d` of the input for every batch size (it never touches the
`normalise` lambda with its hard-coded reshape), and every output plane is
elementwise positive and sums to exactly 1, provided the embedded `exp` is
everywhere positive. -/
theorem c10_softmax_any_batch {B H W : ℕ} (ex : ℚ → ℚ) (hex : ∀ t, 0 < ex t)
    (x : Fin B → Fin H → Fin W → ℚ) (b : Fin B) (i : Fin H) (j : Fin W) :
    normalise_heatmap ex x "softmax" = .ok (softmax2d ex x) ∧
    0 < softmax2d ex x b i j ∧
    planeSum (softmax2d ex x b) = 1 := by
  have hSpos : 0 < planeSum (fun i' j' => ex (x b i' j' - planeMax (x b))) :=
    planeSum_pos _ (fun i' j' => hex _) i j
  refine ⟨rfl, ?_, ?_⟩
  · exact div_pos (hex _) hSpos
  · exact planeSum_div_self _ (ne_of_gt hSpos)

/-- Witness for C10 at batch size 1 (where the reshape path would fail) with
the concrete positive `expQ`. -/
theorem c10_softmax_any_batch_witness :
    normalise_heatmap expQ (fun (_ : Fin 1) (_ : Fin 1) (_ : Fin 1) => (0 : ℚ))
        "softmax" =
      .ok (softmax2d expQ (fun _ _ _ => (0 : ℚ))) ∧
    0 < softmax2d expQ (fun (_ : Fin 1) (_ : Fin 1) (_ : Fin 1) => (0 : ℚ))
        0 0 0 ∧
    planeSum (softmax2d expQ
      (fun (_ : Fin 1) (_ : Fin 1) (_ : Fin 1) => (0 : ℚ)) 0) = 1 :=
  c10_softmax_any_batch expQ expQ_pos _ 0 0 0

lemma make_gaussian_eq_spec {H W : ℕ} (ex : ℚ → ℚ) (lg2 : ℚ)
    (centre : ℚ × ℚ) (fwhm : ℚ) :
    make_gaussian (H := H) (W := W) ex lg2 centre fwhm =
      gaussSpecFormula ex lg2 centre fwhm := by
  have harg : ∀ (a : Fin H) (c : Fin W),
      (-4 * lg2 * (((c : ℚ) - (centre.1 * (W : ℚ) - 1/2)) ^ 2 +
        ((a : ℚ) - (centre.2 * (H : ℚ) - 1/2)) ^ 2) / fwhm ^ 2) =
      (-4 * lg2 * (((c : ℚ) - centre.1 * (W : ℚ) + 1/2) ^ 2 +
        ((a : ℚ) - centre.2 * (H : ℚ) + 1/2) ^ 2) / fwhm ^ 2) := by
    intro a c
    ring
  unfold make_gaussian gaussSpecFormula
  funext i j
  rw [harg i j]
  congr 1
  exact congrArg planeSum (by funext i' j'; rw [harg i' j'])

/-- Claim C7: `_make_gaussian` computes the cropped, normalised Gaussian
surface exactly as the spec's formula states it (`gaussSpecFormula`), the
returned plane sums to 1, and the value at any pixel minimising the shifted
squared distance `(j - cx + 1/2)^2 + (i - cy + 1/2)^2` (with
`(cx, cy) = (centre.x*W, centre.y*H)`; because of the `0.5` offset this
minimiser is the pixel nearest to, or adjacent to the pixel nearest to, the
scaled centre) dominates the value at every other pixel, whenever the
embedded `exp` is positive and strictly increasing, `ln 2 > 0` and
`fwhm > 0`. -/
theorem c7_make_gaussian_props {H W : ℕ} (ex : ℚ → ℚ) (lg2 fwhm : ℚ)
    (centre : ℚ × ℚ)
    (hex_pos : ∀ t, 0 < ex t)
    (hex_mono : ∀ a b : ℚ, a < b → ex a < ex b)
    (hlg2 : 0 < lg2) (hfwhm : 0 < fwhm)
    (hc1 : 0 ≤ centre.1 ∧ centre.1 ≤ 1) (hc2 : 0 ≤ centre.2 ∧ centre.2 ≤ 1)
    (i0 i : Fin H) (j0 j : Fin W)
    (hnear : ((j0 : ℚ) - centre.1 * (W : ℚ) + 1/2) ^ 2 +
        ((i0 : ℚ) - centre.2 * (H : ℚ) + 1/2) ^ 2 ≤
      ((j : ℚ) - centre.1 * (W : ℚ) + 1/2) ^ 2 +
        ((i : ℚ) - centre.2 * (H : ℚ) + 1/2) ^ 2) :
    make_gaussian ex lg2 centre fwhm i j =
      gaussSpecFormula ex lg2 centre fwhm i j ∧
    planeSum (make_gaussian (H := H) (W := W) ex lg2 centre fwhm) = 1 ∧
    make_gaussian ex lg2 centre fwhm i j ≤
      make_gaussian ex lg2 centre fwhm i0 j0 := by
  have hS : 0 < planeSum (fun (i' : Fin H) (j' : Fin W) =>
      ex (-4 * lg2 * (((j' : ℚ) - (centre.1 * (W : ℚ) - 1/2)) ^ 2 +
        ((i' : ℚ) - (centre.2 * (H : ℚ) - 1/2)) ^ 2) / fwhm ^ 2)) :=
    planeSum_pos _ (fun _ _ => hex_pos _) i j
  refine ⟨congrFun (congrFun (make_gaussian_eq_spec ex lg2 centre fwhm) i) j,
    ?_, ?_⟩
  · unfold make_gaussian
    exact planeSum_div_self _ (ne_of_gt hS)
  · have hf2 : (0 : ℚ) < fwhm ^ 2 := pow_pos hfwhm 2
    have hargle : (-4 * lg2 * (((j : ℚ) - (centre.1 * (W : ℚ) - 1/2)) ^ 2 +
          ((i : ℚ) - (centre.2 * (H : ℚ) - 1/2)) ^ 2) / fwhm ^ 2) ≤
        (-4 * lg2 * (((j0 : ℚ) - (centre.1 * (W : ℚ) - 1/2)) ^ 2 +
          ((i0 : ℚ) - (centre.2 * (H : ℚ) - 1/2)) ^ 2) / fwhm ^ 2) := by
      rw [div_le_div_iff hf2 hf2]
      nlinarith [mul_le_mul_of_nonneg_left hnear
        (mul_nonneg (le_of_lt hlg2) (le_of_lt hf2))]
    have hexle : ex (-4 * lg2 * (((j : ℚ) - (centre.1 * (W : ℚ) - 1/2)) ^ 2 +
          ((i : ℚ) - (centre.2 * (H : ℚ) - 1/2)) ^ 2) / fwhm ^ 2) ≤
        ex (-4 * lg2 * (((j0 : ℚ) - (centre.1 * (W : ℚ) - 1/2)) ^ 2 +
          ((i0 : ℚ) - (centre.2 * (H : ℚ) - 1/2)) ^ 2) / fwhm ^ 2) := by
      rcases lt_or_eq_of_le hargle with h | h
      · exact le_of_lt (hex_mono _ _ h)
      · rw [h]
    unfold make_gaussian
    exact div_le_div_of_nonneg_right hexle hS.le

/-- Witness for C7 on a 1x1 plane with centre `(1/2, 1/2)`, `fwhm = 1`,
`lg2 = 1` and the concrete positive strictly-increasing `expQ`. -/
theorem c7_make_gaussian_props_witness :
    make_gaussian expQ 1 (1/2, 1/2) 1 (0 : Fin 1) (0 : Fin 1) =
      gaussSpecFormula (H := 1) (W := 1) expQ 1 (1/2, 1/2) 1 0 0 ∧
    planeSum (make_gaussian (H := 1) (W := 1) expQ 1 (1/2, 1/2) 1) = 1 ∧
    make_gaussian expQ 1 (1/2, 1/2) 1 (0 : Fin 1) (0 : Fin 1) ≤
      make_gaussian expQ 1 (1/2, 1/2) 1 (0 : Fin 1) (0 : Fin 1) :=
  c7_make_gaussian_props (H := 1) (W := 1) expQ 1 1 (1/2, 1/2) expQ_pos
    (fun _ _ h => expQ_lt_expQ h) (by norm_num) (by norm_num)
    ⟨by norm_num, by norm_num⟩ ⟨by norm_num, by norm_num⟩
    0 0 0 0 (le_refl _)

lemma getD_flatten_uniform {L : ℕ} (ls : List (List ℚ)) :
    ∀ b k : ℕ, (∀ l ∈ ls, l.length = L) → b < ls.length → k < L →
      ls.flatten.getD (b * L + k) 0 = (ls.getD b []).getD k 0 := by
  induction ls with
  | nil =>
    intro b k _ hb _
    simp at hb
  | cons l ls ih =>
    intro b k hlen hb hk
    have hl : l.length = L := hlen l (List.mem_cons_self l ls)
    cases b with
    | zero =>
      rw [List.flatten_cons, Nat.zero_mul, Nat.zero_add,
        List.getD_append _ _ _ _ (by rw [hl]; exact hk)]
      rfl
    | succ b' =>
      rw [List.flatten_cons]
      have hidx : (b' + 1) * L + k = l.length + (b' * L + k) := by
        rw [hl]
        ring
      rw [hidx, List.getD_append_right _ _ _ _ (Nat.le_add_right _ _),
        Nat.add_sub_cancel_left, List.getD_cons_succ]
      refine ih b' k (fun l' h' => hlen l' (List.mem_cons_of_mem _ h')) ?_ hk
      have : b' + 1 < ls.length + 1 := by simpa using hb
      omega

lemma flattenPlane_length {H W : ℕ} (g : Fin H → Fin W → ℚ) :
    (flattenPlane g).length = H * W := by
  unfold flattenPlane planeList
  rw [List.length_flatten, List.map_map]
  have h : (List.finRange H).map (List.length ∘ fun i => (List.finRange W).map (g i)) =
      (List.finRange H).map (fun _ => W) := by
    refine List.map_congr_left (fun a _ => ?_)
    simp
  rw [h, List.map_const', List.sum_replicate, List.length_finRange, smul_eq_mul]

lemma getD_flattenPlane {H W : ℕ} (g : Fin H → Fin W → ℚ) (i : Fin H)
    (j : Fin W) :
    (flattenPlane g).getD ((i : ℕ) * W + (j : ℕ)) 0 = g i j := by
  unfold flattenPlane planeList
  refine Eq.trans (getD_flatten_uniform _ _ _ ?_ ?_ ?_) ?_
  · intro l hl
    obtain ⟨a, _, rfl⟩ := List.mem_map.mp hl
    simp
  · simpa using i.isLt
  · exact j.isLt
  · have h1 : (((List.finRange H).map
        (fun a => (List.finRange W).map (g a))).getD (i : ℕ) []) =
        (List.finRange W).map (g i) := by
      rw [List.getD_eq_getElem _ _ (by simpa using i.isLt)]
      simp
    rw [h1, List.getD_eq_getElem _ _ (by simpa using j.isLt)]
    simp

lemma make_gaussians_loop_eq (ex : ℚ → ℚ) (lg2 : ℚ) (H W : ℕ) (fwhm : ℚ) :
    ∀ (centres : List (ℚ × ℚ)) (acc : List ℚ),
      make_gaussians_loop ex lg2 H W fwhm centres acc =
        acc ++ (centres.map (fun c =>
          flattenPlane (make_gaussian (H := H) (W := W) ex lg2 c fwhm))).flatten := by
  intro centres
  induction centres with
  | nil =>
    intro acc
    simp [make_gaussians_loop]
  | cons c rest ih =>
    intro acc
    rw [List.map_cons, List.flatten_cons]
    show make_gaussians_loop ex lg2 H W fwhm rest
        (acc ++ flattenPlane (make_gaussian (H := H) (W := W) ex lg2 c fwhm)) = _
    rw [ih, List.append_assoc]

lemma make_gaussians_flat_eq (ex : ℚ → ℚ) (lg2 : ℚ)
    (centres_in : List (ℚ × ℚ)) (height width : ℕ) (fwhm : ℚ) :
    make_gaussians_flat ex lg2 centres_in height width fwhm =
      (centres_in.map (fun c =>
        flattenPlane (make_gaussian (H := height) (W := width) ex lg2 c fwhm))).flatten := by
  unfold make_gaussians_flat
  rw [make_gaussians_loop_eq]
  exact List.nil_append _

lemma make_gaussians_apply (ex : ℚ → ℚ) (lg2 : ℚ)
    (centres_in : List (ℚ × ℚ)) (height width : ℕ) (fwhm : ℚ)
    (b : Fin centres_in.length) (i : Fin height) (j : Fin width) :
    make_gaussians ex lg2 centres_in height width fwhm b i j =
      make_gaussian ex lg2 (centres_in.get b) fwhm i j := by
  unfold make_gaussians
  rw [make_gaussians_flat_eq, Nat.add_assoc]
  refine Eq.trans (getD_flatten_uniform _ _ _ ?_ ?_ ?_) ?_
  · intro l hl
    obtain ⟨c, _, rfl⟩ := List.mem_map.mp hl
    exact flattenPlane_length _
  · simpa using b.isLt
  · have hi : (i : ℕ) + 1 ≤ height := i.isLt
    calc (i : ℕ) * width + (j : ℕ) < (i : ℕ) * width + width := by
          have := j.isLt
          omega
      _ = ((i : ℕ) + 1) * width := by ring
      _ ≤ height * width := Nat.mul_le_mul_right width hi
  · have h1 : ((centres_in.map (fun c => flattenPlane
        (make_gaussian (H := height) (W := width) ex lg2 c fwhm))).getD
          (b : ℕ) []) =
        flattenPlane (make_gaussian (H := height) (W := width) ex lg2
          (centres_in.get b) fwhm) := by
      rw [List.getD_eq_getElem _ _ (by simpa using b.isLt)]
      simp [List.get_eq_getElem]
    rw [h1, getD_flattenPlane]

/-- Claim C8: the while loop of `_make_gaussians` accumulates exactly one
flattened Gaussian per row of `centres`, in input order (the flat tensor is
the concatenation of the per-row Gaussians), the reshape to `[-1, H, W]`
recovers the `b`-th Gaussian at batch index `b`, and `js_reg_loss` is the mean
over the batch of the per-element JS divergences between the heatmaps and
these targets. -/
theorem c8_make_gaussians_batched {H W : ℕ} (ex lg : ℚ → ℚ) (lg2 : ℚ)
    (centres : List (ℚ × ℚ))
    (heatmaps : Fin centres.length → Fin H → Fin W → ℚ) (fwhm : ℚ)
    (b : Fin centres.length) (i : Fin H) (j : Fin W) :
    make_gaussians_flat ex lg2 centres H W fwhm =
      (centres.map (fun c =>
        flattenPlane (make_gaussian (H := H) (W := W) ex lg2 c fwhm))).flatten ∧
    make_gaussians ex lg2 centres H W fwhm b i j =
      make_gaussian ex lg2 (centres.get b) fwhm i j ∧
    js_reg_loss ex lg lg2 centres heatmaps fwhm =
      (∑ b' : Fin centres.length,
        js_2d lg heatmaps
          (fun b'' i' j' => make_gaussian ex lg2 (centres.get b'') fwhm i' j')
          js_2d_eps_default b') / (centres.length : ℚ) := by
  refine ⟨make_gaussians_flat_eq ex lg2 centres H W fwhm,
    make_gaussians_apply ex lg2 centres H W fwhm b i j, ?_⟩
  unfold js_reg_loss
  have hg : make_gaussians ex lg2 centres H W fwhm =
      fun b'' i' j' => make_gaussian ex lg2 (centres.get b'') fwhm i' j' := by
    funext b'' i' j'
    exact make_gaussians_apply ex lg2 centres H W fwhm b'' i' j'
  rw [hg]

end Dsnt
